import Mathlib

set_option maxRecDepth 100000

/-!
Verification of the statistical RC4 key-recovery engine in `solve.py`
(Klein-style chosen-plaintext attack).  The Python source is shallowly
embedded: byte strings become `List Nat`, the 256-slot permutation is a
`List Nat` of length 256, Python's `%` on possibly negative ints is `Int.emod`,
Python indexing (with its negative-index semantics and `IndexError`) becomes
an `Option`-valued lookup, and uncaught Python exceptions become `none` /
`.crashed` outcomes.
-/

/-- One iteration of the key-scheduling loop in `attack`
(`j = (j + S[i] + known_bytes[i]) % 256; S[i], S[j] = S[j], S[i]`,
solve.py lines 252-254).  The pair `Sj` is the state `(S, j)`, `i` the loop
index and `b` the byte `known_bytes[i]`. -/
def ksaStep (Sj : List Nat × Nat) (i b : Nat) : List Nat × Nat :=
  let j' := (Sj.2 + Sj.1.getD i 0 + b) % 256
  (((Sj.1.set i (Sj.1.getD j' 0)).set j' (Sj.1.getD i 0)), j')

/-- The `for i in range(num_known_bytes)` loop of the KSA simulation in
`attack` (solve.py lines 252-254), consuming the remaining known bytes while
counting the index `i` up. -/
def ksa_loop : List Nat × Nat → Nat → List Nat → List Nat × Nat
  | Sj, _, [] => Sj
  | Sj, i, b :: rest => ksa_loop (ksaStep Sj i b) (i + 1) rest

/-- The KSA state simulation of `attack` (solve.py lines 249-254):
`S = [i for i in range(256)]; j = 0`, then one `ksaStep` per known byte. -/
def simulate_ksa (known_bytes : List Nat) : List Nat × Nat :=
  ksa_loop (List.range 256, 0) 0 known_bytes

/-- Python sequence indexing `l[i]`: negative indices count from the end,
out-of-range access raises `IndexError` (modelled as `none`). -/
def pyIndex (l : List Nat) (i : Int) : Option Nat :=
  let i' : Int := if i < 0 then i + l.length else i
  if 0 ≤ i' ∧ i' < (l.length : Int) then some (l.getD i'.toNat 0) else none

/-- The linear search `for x in range(256): if S[x] == next_S_i: pre_i = x; break`
of `attack` (solve.py lines 320-324): try indices `x, x+1, ...` for `cnt`
steps, returning the first hit. -/
def scan_for (S : List Nat) (v : Nat) : Nat → Nat → Option Nat
  | _, 0 => none
  | x, cnt + 1 => if S.getD x 0 = v then some x else scan_for S v (x + 1) cnt

/-- The per-sample candidate derivation in the body of the sample loop of
`attack` (solve.py lines 312-330):
`output_byte = keystream[num_known_bytes - 1]`,
`next_S_i = (num_known_bytes - output_byte) % 256`, the linear search for
`pre_i`, and `key_byte = (pre_i - j - S[num_known_bytes]) % 256`.
`none` models an uncaught Python exception (an `IndexError` on `keystream`
or `S`, or the `TypeError` on `pre_i = None` when the search fails). -/
def extract_candidate (known_bytes keystream : List Nat) : Option Nat :=
  let n := known_bytes.length
  let Sj := simulate_ksa known_bytes
  let S := Sj.1
  let j := Sj.2
  match pyIndex keystream ((n : Int) - 1) with
  | none => none
  | some output_byte =>
    let next_S_i : Nat := (((n : Int) - (output_byte : Int)) % 256).toNat
    match scan_for S next_S_i 0 256 with
    | none => none
    | some pre_i =>
      match pyIndex S (n : Int) with
      | none => none
      | some Sn => some ((((pre_i : Int) - (j : Int) - (Sn : Int)) % 256).toNat)

/-- `count_elements` of solve.py (lines 123-129): the tally of `x` in `xs`;
the Python dict maps each element of `xs` to its multiplicity. -/
def count_elements (xs : List Nat) (x : Nat) : Nat := xs.count x

/-- Python's `max(a :: l, key=f)`: fold over the tail keeping the current
best, replacing it only on a strictly larger key, so the first element
attaining the maximal key wins. -/
def argfold (f : Nat → Nat) : Nat → List Nat → Nat
  | a, [] => a
  | a, y :: l => argfold f (if f y > f a then y else a) l

/-- `most_common_element` of solve.py (lines 132-134):
`max(xs, key=count_elements(xs).get)`.  Python's `max` raises `ValueError`
on an empty sequence, modelled as `none`. -/
def most_common_element (xs : List Nat) : Option Nat :=
  match xs with
  | [] => none
  | x :: rest => some (argfold (count_elements xs) x rest)

/-- The known-byte prefix `known_bytes = nonce + counter + key` used by the
sample loop of `attack` (solve.py line 243). -/
def mk_known_bytes (nonce counter key : List Nat) : List Nat :=
  nonce ++ counter ++ key

/-- The candidate-collection loop of `attack` (lines 242-330): one
`extract_candidate` per `(counter, keystream)` sample, in order, appending to
`candidate_key_bytes`; any uncaught exception aborts the whole run (`none`). -/
def extract_all (nonce key : List Nat) : List (List Nat × List Nat) → Option (List Nat)
  | [] => some []
  | s :: rest =>
    match extract_candidate (mk_known_bytes nonce s.1 key) s.2, extract_all nonce key rest with
    | some c, some cs => some (c :: cs)
    | _, _ => none

/-- One iteration of the `while not test_key(...)` recovery loop of `attack`
(lines 240-340): collect a candidate per sample, take the most common one and
append it to the key.  `none` models an uncaught exception. -/
def attack_round (nonce : List Nat) (samples : List (List Nat × List Nat))
    (key : List Nat) : Option (List Nat) :=
  match extract_all nonce key samples with
  | none => none
  | some cands =>
    match most_common_element cands with
    | none => none
    | some b => some (key ++ [b])

/-- Outcome of running the recovery loop of `attack` for a bounded number of
iterations. -/
inductive AttackResult where
  | verified (key : List Nat)
  | crashed
  | running (key : List Nat)
deriving DecidableEq

/-- The recovery loop `while not test_key(...)` of `attack` (lines 238-340),
with an explicit iteration budget `fuel`.  `verify` abstracts the
`test_key(test_nonce, test_counter, counter_size, key, test_pt, test_ct)`
stopping condition.  `.running key` means the budget ran out with the loop
still going — the source imposes no bound of its own. -/
def attack_loop (verify : List Nat → Bool) (nonce : List Nat)
    (samples : List (List Nat × List Nat)) : Nat → List Nat → AttackResult
  | 0, key => .running key
  | fuel + 1, key =>
    if verify key then .verified key
    else
      match attack_round nonce samples key with
      | none => .crashed
      | some key' => attack_loop verify nonce samples fuel key'

/-- Little-endian base-256 digits of `x`, `len` of them (the byte list of
`x.to_bytes(length=len, byteorder="little")` when `x` fits). -/
def nat_to_bytes_le : Nat → Nat → List Nat
  | _, 0 => []
  | x, len + 1 => (x % 256) :: nat_to_bytes_le (x / 256) len

/-- Python's `x.to_bytes(length=len, byteorder="little", signed=False)`
(solve.py line 176): `none` models the `OverflowError` raised when `x` does
not fit in `len` bytes. -/
def to_bytes_le (x len : Nat) : Option (List Nat) :=
  if x < 256 ^ len then some (nat_to_bytes_le x len) else none

/-- The key sizes (in bits) accepted by the `cryptography` package's `ARC4`
algorithm; any other length makes the `Cipher` constructor raise
`ValueError`. -/
def arc4_key_sizes : List Nat := [40, 56, 64, 80, 128, 160, 192, 256]

/-- Modelled from the spec: the external `ARC4` primitive's key schedule —
the full 256-round RC4 KSA, cycling over the key bytes, as in the Klein
paper the source cites.  Reuses `ksa_loop`, whose round is exactly the KSA
round. -/
def rc4_ksa (key : List Nat) : List Nat × Nat :=
  ksa_loop (List.range 256, 0) 0
    ((List.range 256).map fun i => key.getD (i % key.length) 0)

/-- Modelled from the spec: the external `ARC4` primitive's output loop
(PRGA) — `i = (i+1) % 256; j = (j + S[i]) % 256; swap S[i], S[j];
output S[(S[i] + S[j]) % 256]`, run `n` times from state `(S, i, j)`. -/
def prga_loop : List Nat × Nat × Nat → Nat → List Nat
  | _, 0 => []
  | (S, i, j), n + 1 =>
    let i' := (i + 1) % 256
    let j' := (j + S.getD i' 0) % 256
    let S' := (S.set i' (S.getD j' 0)).set j' (S.getD i' 0)
    (S'.getD ((S'.getD i' 0 + S'.getD j' 0) % 256) 0) :: prga_loop (S', i', j') n

/-- Modelled from the spec: `n` bytes of RC4 keystream under `key`. -/
def rc4_keystream (key : List Nat) (n : Nat) : List Nat :=
  prga_loop ((rc4_ksa key).1, 0, 0) n

/-- Modelled from the spec: RC4 encryption — XOR the plaintext against the
keystream ("run the complete cipher keystream generation (not just KSA)"). -/
def rc4_encrypt (key pt : List Nat) : List Nat :=
  List.zipWith (fun a b => a ^^^ b) pt (rc4_keystream key pt.length)

/-- The body of the `try:` block of `test_key` (solve.py lines 173-186):
build `nonce + counter-bytes + key`, encrypt the plaintext with `ARC4` under
that key, compare with the expected ciphertext.  `none` models an exception
(`OverflowError` from `to_bytes`, or `ValueError` from `ARC4` on an invalid
key length). -/
def test_key_checked (nonce : List Nat) (counter counter_size : Nat)
    (key plaintext expected : List Nat) : Option Bool :=
  match to_bytes_le counter counter_size with
  | none => none
  | some cb =>
    let key_bytes := nonce ++ cb ++ key
    if 8 * key_bytes.length ∈ arc4_key_sizes then
      some (rc4_encrypt key_bytes plaintext == expected)
    else none

/-- `test_key` of solve.py (lines 167-189): the `try:` body with the bare
`except: return False` wrapped around it. -/
def test_key (nonce : List Nat) (counter counter_size : Nat)
    (key plaintext expected : List Nat) : Bool :=
  (test_key_checked nonce counter counter_size key plaintext expected).getD false

/-! ## Properties of the majority selector -/

lemma argfold_mem (f : Nat → Nat) : ∀ (l : List Nat) (a : Nat),
    argfold f a l = a ∨ argfold f a l ∈ l := by
  intro l
  induction l with
  | nil => intro a; left; rfl
  | cons y l ih =>
    intro a
    simp only [argfold]
    rcases ih (if f y > f a then y else a) with h | h
    · rw [h]
      by_cases hc : f y > f a
      · right; simp [hc]
      · left; simp [hc]
    · right; exact List.mem_cons_of_mem _ h

lemma argfold_le (f : Nat → Nat) : ∀ (l : List Nat) (a : Nat),
    f a ≤ f (argfold f a l) := by
  intro l
  induction l with
  | nil => intro a; exact le_rfl
  | cons y l ih =>
    intro a
    simp only [argfold]
    by_cases hc : f y > f a
    · simp only [if_pos hc]
      exact le_trans (le_of_lt hc) (ih y)
    · simp only [if_neg hc]
      exact ih a

lemma argfold_ub (f : Nat → Nat) : ∀ (l : List Nat) (a y : Nat), y ∈ l →
    f y ≤ f (argfold f a l) := by
  intro l
  induction l with
  | nil => intro a y hy; exact absurd hy (List.not_mem_nil y)
  | cons z l ih =>
    intro a y hy
    simp only [argfold]
    rcases List.mem_cons.mp hy with h' | h'
    · rw [h']
      by_cases hc : f z > f a
      · simp only [if_pos hc]
        exact argfold_le f l z
      · simp only [if_neg hc]
        exact le_trans (le_of_not_lt hc) (argfold_le f l a)
    · exact ih _ y h'

lemma argfold_first (f : Nat → Nat) : ∀ (l : List Nat) (a : Nat),
    ∃ n, (a :: l).get? n = some (argfold f a l) ∧
      ∀ k, k < n → ∀ v, (a :: l).get? k = some v → f v < f (argfold f a l) := by
  intro l
  induction l with
  | nil =>
    intro a
    exact ⟨0, rfl, fun k hk => absurd hk (Nat.not_lt_zero k)⟩
  | cons y l ih =>
    intro a
    simp only [argfold]
    by_cases hc : f y > f a
    · simp only [if_pos hc]
      obtain ⟨n, hget, hlt⟩ := ih y
      refine ⟨n + 1, hget, ?_⟩
      intro k hk v hv
      cases k with
      | zero =>
        have hva : a = v := by simpa using hv
        cases hva
        exact lt_of_lt_of_le hc (argfold_le f l y)
      | succ k' =>
        exact hlt k' (Nat.lt_of_succ_lt_succ hk) v (by simpa using hv)
    · simp only [if_neg hc]
      obtain ⟨n, hget, hlt⟩ := ih a
      cases n with
      | zero =>
        have hra : argfold f a l = a := by
          have h0 := hget
          simp only [List.get?_cons_zero, Option.some.injEq] at h0
          exact h0.symm
        refine ⟨0, ?_, ?_⟩
        · simpa using hra.symm
        · intro k hk; exact absurd hk (Nat.not_lt_zero k)
      | succ m =>
        refine ⟨m + 2, by simpa using hget, ?_⟩
        intro k hk v hv
        have ha0 : f a < f (argfold f a l) :=
          hlt 0 (Nat.succ_pos m) a rfl
        cases k with
        | zero =>
          have hva : a = v := by simpa using hv
          cases hva; exact ha0
        | succ k' =>
          cases k' with
          | zero =>
            have hvy : y = v := by simpa using hv
            cases hvy
            exact lt_of_le_of_lt (le_of_not_lt hc) ha0
          | succ k'' =>
            refine hlt (k'' + 1) ?_ v (by simpa using hv)
            omega

lemma most_common_mem (xs : List Nat) (m : Nat)
    (h : most_common_element xs = some m) : m ∈ xs := by
  cases xs with
  | nil => exact absurd h (by simp [most_common_element])
  | cons x rest =>
    have hm : argfold (count_elements (x :: rest)) x rest = m := by
      simpa [most_common_element] using h
    rcases argfold_mem (count_elements (x :: rest)) rest x with h' | h'
    · rw [← hm, h']; exact List.mem_cons_self x rest
    · rw [← hm]; exact List.mem_cons_of_mem x h'

lemma most_common_ub (xs : List Nat) (m : Nat)
    (h : most_common_element xs = some m) :
    ∀ y ∈ xs, xs.count y ≤ xs.count m := by
  cases xs with
  | nil => intro y hy; exact absurd hy (List.not_mem_nil y)
  | cons x rest =>
    have hm : argfold (count_elements (x :: rest)) x rest = m := by
      simpa [most_common_element] using h
    intro y hy
    rcases List.mem_cons.mp hy with h' | h'
    · rw [h']
      have h1 := argfold_le (count_elements (x :: rest)) rest x
      rw [hm] at h1
      exact h1
    · have h1 := argfold_ub (count_elements (x :: rest)) rest x y h'
      rw [hm] at h1
      exact h1

/-- C4: on every non-empty candidate sequence of bytes, `most_common_element`
returns a value occurring in the sequence whose tally is maximal; when one
value has a strictly highest tally it returns that value.  (As a pure Lean
function of the sequence the result is deterministic by construction.) -/
theorem most_common_element_spec (xs : List Nat) (hne : xs ≠ [])
    (hrange : ∀ x ∈ xs, x < 256) :
    ∃ m, most_common_element xs = some m ∧ m ∈ xs ∧
      (∀ y ∈ xs, xs.count y ≤ xs.count m) ∧
      ∀ z ∈ xs, (∀ y ∈ xs, y ≠ z → xs.count y < xs.count z) → m = z := by
  obtain ⟨m, hm⟩ : ∃ m, most_common_element xs = some m := by
    cases xs with
    | nil => exact absurd rfl hne
    | cons x rest => exact ⟨_, rfl⟩
  refine ⟨m, hm, most_common_mem xs m hm, most_common_ub xs m hm, ?_⟩
  intro z hz hstrict
  by_contra hne'
  have h1 : xs.count m < xs.count z := hstrict m (most_common_mem xs m hm) hne'
  have h2 : xs.count z ≤ xs.count m := most_common_ub xs m hm z hz
  omega

theorem most_common_element_spec_witness :
    ∃ m, most_common_element [1, 2, 2] = some m ∧ m ∈ [1, 2, 2] ∧
      (∀ y ∈ [1, 2, 2], List.count y [1, 2, 2] ≤ List.count m [1, 2, 2]) ∧
      ∀ z ∈ [1, 2, 2],
        (∀ y ∈ [1, 2, 2], y ≠ z → List.count y [1, 2, 2] < List.count z [1, 2, 2]) → m = z :=
  most_common_element_spec [1, 2, 2] (by decide) (by decide)

/-- C10: `most_common_element` breaks ties by position, not by numeric value:
the returned value `m` has maximal tally and sits at a position `n` of the
sequence such that every value at an earlier position has a strictly smaller
tally — i.e. among the maximal-tally values, the one whose first occurrence
is earliest wins (Python's `max` keeps the first argument attaining the
maximal key). -/
theorem most_common_element_tiebreak (xs : List Nat) (m : Nat)
    (h : most_common_element xs = some m) :
    (∀ z ∈ xs, xs.count z ≤ xs.count m) ∧
    ∃ n, xs.get? n = some m ∧
      ∀ k, k < n → ∀ v, xs.get? k = some v → xs.count v < xs.count m := by
  refine ⟨most_common_ub xs m h, ?_⟩
  cases xs with
  | nil => exact absurd h (by simp [most_common_element])
  | cons x rest =>
    have hm : argfold (count_elements (x :: rest)) x rest = m := by
      simpa [most_common_element] using h
    obtain ⟨n, hget, hlt⟩ := argfold_first (count_elements (x :: rest)) rest x
    rw [hm] at hget hlt
    exact ⟨n, hget, fun k hk v hv => hlt k hk v hv⟩

theorem most_common_element_tiebreak_witness :
    (∀ z ∈ [7, 5, 5], List.count z [7, 5, 5] ≤ List.count 5 [7, 5, 5]) ∧
    ∃ n, List.get? [7, 5, 5] n = some 5 ∧
      ∀ k, k < n → ∀ v, List.get? [7, 5, 5] k = some v →
        List.count v [7, 5, 5] < List.count 5 [7, 5, 5] :=
  most_common_element_tiebreak [7, 5, 5] 5 (by rfl)

/-! ## Round structure of the KSA simulation -/

lemma ksa_loop_append (bs1 : List Nat) : ∀ (bs2 : List Nat) (Sj : List Nat × Nat) (i : Nat),
    ksa_loop Sj i (bs1 ++ bs2) = ksa_loop (ksa_loop Sj i bs1) (i + bs1.length) bs2 := by
  induction bs1 with
  | nil => intro bs2 Sj i; simp [ksa_loop]
  | cons b bs1 ih =>
    intro bs2 Sj i
    show ksa_loop (ksaStep Sj i b) (i + 1) (bs1 ++ bs2) =
        ksa_loop (ksa_loop (ksaStep Sj i b) (i + 1) bs1) (i + (bs1.length + 1)) bs2
    rw [ih bs2 (ksaStep Sj i b) (i + 1)]
    congr 1
    omega

/-- C2: the KSA simulation starts from the identity permutation with `j = 0`
(the empty prefix returns exactly that state) and processes one byte per
round: extending the prefix by one byte performs exactly one more `ksaStep`
(`j = (j + S[i] + b) % 256` then swap `S[i], S[j]`) at index `len(bs)`, and
no extra round.  The length bound keeps the statement inside the domain
where the Python list indexing is defined. -/
theorem simulate_ksa_rounds :
    simulate_ksa [] = (List.range 256, 0) ∧
    ∀ (bs : List Nat) (b : Nat), bs.length < 256 →
      simulate_ksa (bs ++ [b]) = ksaStep (simulate_ksa bs) bs.length b := by
  constructor
  · rfl
  · intro bs b _
    show ksa_loop (List.range 256, 0) 0 (bs ++ [b]) = _
    rw [ksa_loop_append bs [b] (List.range 256, 0) 0]
    simp only [ksa_loop, Nat.zero_add]
    rfl

theorem simulate_ksa_rounds_witness :
    simulate_ksa ([3] ++ [7]) = ksaStep (simulate_ksa [3]) 1 7 :=
  simulate_ksa_rounds.2 [3] 7 (by decide)

/-! ## The permutation invariant -/

lemma cons_set_perm : ∀ (t : List Nat) (m : Nat) (hm : m < t.length) (a : Nat),
    (t.get ⟨m, hm⟩ :: t.set m a).Perm (a :: t) := by
  intro t
  induction t with
  | nil => intro m hm; exact absurd hm (by simp)
  | cons b s ih =>
    intro m hm a
    cases m with
    | zero =>
      exact List.Perm.swap a b s
    | succ k =>
      have hk : k < s.length := Nat.lt_of_succ_lt_succ hm
      have h1 : (s.get ⟨k, hk⟩ :: b :: s.set k a).Perm (b :: s.get ⟨k, hk⟩ :: s.set k a) :=
        List.Perm.swap b (s.get ⟨k, hk⟩) (s.set k a)
      have h2 : (b :: s.get ⟨k, hk⟩ :: s.set k a).Perm (b :: a :: s) :=
        List.Perm.cons b (ih k hk a)
      have h3 : (b :: a :: s).Perm (a :: b :: s) := List.Perm.swap a b s
      exact h1.trans (h2.trans h3)

lemma set_set_get_perm : ∀ (S : List Nat) (i j : Nat) (hi : i < S.length) (hj : j < S.length),
    ((S.set i (S.get ⟨j, hj⟩)).set j (S.get ⟨i, hi⟩)).Perm S := by
  intro S
  induction S with
  | nil => intro i j hi _; exact absurd hi (by simp)
  | cons a t ih =>
    intro i j hi hj
    cases i with
    | zero =>
      cases j with
      | zero => exact List.Perm.refl _
      | succ m =>
        have hmt : m < t.length := Nat.lt_of_succ_lt_succ hj
        exact cons_set_perm t m hmt a
    | succ k =>
      have hkt : k < t.length := Nat.lt_of_succ_lt_succ hi
      cases j with
      | zero => exact cons_set_perm t k hkt a
      | succ m =>
        have hmt : m < t.length := Nat.lt_of_succ_lt_succ hj
        exact List.Perm.cons a (ih k m hkt hmt)

lemma set_set_getD_perm (S : List Nat) (i j : Nat) (hi : i < S.length) (hj : j < S.length) :
    ((S.set i (S.getD j 0)).set j (S.getD i 0)).Perm S := by
  rw [List.getD_eq_get S 0 hj, List.getD_eq_get S 0 hi]
  exact set_set_get_perm S i j hi hj

lemma ksaStep_perm (Sj : List Nat × Nat) (i b : Nat)
    (hp : Sj.1.Perm (List.range 256)) (hi : i < 256) :
    (ksaStep Sj i b).1.Perm (List.range 256) := by
  have hlen : Sj.1.length = 256 := by simpa using hp.length_eq
  have hj : (Sj.2 + Sj.1.getD i 0 + b) % 256 < Sj.1.length := by
    rw [hlen]; exact Nat.mod_lt _ (by norm_num)
  have hi' : i < Sj.1.length := by rw [hlen]; exact hi
  exact (set_set_getD_perm Sj.1 i _ hi' hj).trans hp

lemma ksa_loop_perm : ∀ (bs : List Nat) (Sj : List Nat × Nat) (i : Nat),
    Sj.1.Perm (List.range 256) → i + bs.length ≤ 256 →
    (ksa_loop Sj i bs).1.Perm (List.range 256) := by
  intro bs
  induction bs with
  | nil => intro Sj i hp _; exact hp
  | cons b rest ih =>
    intro Sj i hp hle
    simp only [ksa_loop]
    simp only [List.length_cons] at hle
    exact ih (ksaStep Sj i b) (i + 1) (ksaStep_perm Sj i b hp (by omega)) (by omega)

/-- C5: for every known-byte prefix (of a length the Python indexing admits),
the simulated state `S` is a permutation of `0..255` — also after each
intermediate step, i.e. for every shorter prefix — and hence every value
`v < 256` is found at exactly one index `x < 256`, so the per-sample linear
search for `next_S_i` locates a unique index. -/
theorem simulate_ksa_permutation (bs : List Nat) (h : bs.length ≤ 256) :
    ((simulate_ksa bs).1).Perm (List.range 256) ∧
    (∀ k, ((simulate_ksa (bs.take k)).1).Perm (List.range 256)) ∧
    ∀ v, v < 256 → ∃! x, x < 256 ∧ (simulate_ksa bs).1.getD x 0 = v := by
  have hmain : ∀ (cs : List Nat), cs.length ≤ 256 →
      ((simulate_ksa cs).1).Perm (List.range 256) := fun cs hcs =>
    ksa_loop_perm cs (List.range 256, 0) 0 (List.Perm.refl _) (by simpa using hcs)
  have hp := hmain bs h
  have hlen : (simulate_ksa bs).1.length = 256 := by simpa using hp.length_eq
  have hnd : (simulate_ksa bs).1.Nodup := hp.nodup_iff.mpr (List.nodup_range 256)
  refine ⟨hp, fun k => hmain _ (by rw [List.length_take]; omega), ?_⟩
  intro v hv
  have hvmem : v ∈ (simulate_ksa bs).1 := hp.mem_iff.mpr (List.mem_range.mpr hv)
  obtain ⟨⟨x, hx⟩, hgx⟩ := List.mem_iff_get.mp hvmem
  have hinj := List.nodup_iff_injective_get.mp hnd
  refine ⟨x, ⟨by omega, ?_⟩, ?_⟩
  · rw [List.getD_eq_get _ 0 hx]; exact hgx
  · rintro y ⟨hy, hgy⟩
    have hy' : y < (simulate_ksa bs).1.length := by omega
    have hgy' : (simulate_ksa bs).1.get ⟨y, hy'⟩ = v := by
      rw [← List.getD_eq_get _ 0 hy']; exact hgy
    have hfe : (⟨y, hy'⟩ : Fin (simulate_ksa bs).1.length) = ⟨x, hx⟩ :=
      hinj (by rw [hgy', hgx])
    simpa using congrArg Fin.val hfe

theorem simulate_ksa_permutation_witness :
    ((simulate_ksa [1, 2]).1).Perm (List.range 256) ∧
    (∀ k, ((simulate_ksa (List.take k [1, 2])).1).Perm (List.range 256)) ∧
    ∀ v, v < 256 → ∃! x, x < 256 ∧ (simulate_ksa [1, 2]).1.getD x 0 = v :=
  simulate_ksa_permutation [1, 2] (by decide)

/-! ## The per-sample candidate extraction -/

lemma scan_for_some (S : List Nat) (v : Nat) : ∀ (cnt x a : Nat),
    scan_for S v x cnt = some a →
    S.getD a 0 = v ∧ x ≤ a ∧ a < x + cnt ∧
      ∀ y, x ≤ y → y < a → S.getD y 0 ≠ v := by
  intro cnt
  induction cnt with
  | zero => intro x a h; exact absurd h (by simp [scan_for])
  | succ cnt ih =>
    intro x a h
    simp only [scan_for] at h
    by_cases hc : S.getD x 0 = v
    · rw [if_pos hc] at h
      obtain rfl : x = a := by simpa using h
      exact ⟨hc, le_rfl, by omega,
        fun y hy1 hy2 => absurd (lt_of_le_of_lt hy1 hy2) (lt_irrefl x)⟩
    · rw [if_neg hc] at h
      obtain ⟨h1, h2, h3, h4⟩ := ih (x + 1) a h
      refine ⟨h1, by omega, by omega, ?_⟩
      intro y hy1 hy2
      rcases Nat.eq_or_lt_of_le hy1 with h' | h'
      · rw [← h']; exact hc
      · exact h4 y h' hy2

lemma scan_for_succeeds (S : List Nat) (v : Nat) : ∀ (cnt x : Nat),
    (∃ idx, x ≤ idx ∧ idx < x + cnt ∧ S.getD idx 0 = v) →
    ∃ a, scan_for S v x cnt = some a := by
  intro cnt
  induction cnt with
  | zero =>
    rintro x ⟨idx, h1, h2, _⟩
    exact absurd (lt_of_le_of_lt h1 h2) (by omega)
  | succ cnt ih =>
    rintro x ⟨idx, h1, h2, h3⟩
    by_cases hc : S.getD x 0 = v
    · exact ⟨x, by simp only [scan_for, if_pos hc]⟩
    · have hne : x ≠ idx := fun he => hc (he ▸ h3)
      obtain ⟨a, ha⟩ := ih (x + 1) ⟨idx, by omega, by omega, h3⟩
      exact ⟨a, by simp only [scan_for, if_neg hc]; exact ha⟩

lemma pyIndex_of_lt (l : List Nat) (k : Nat) (h : k < l.length) :
    pyIndex l (k : Int) = some (l.getD k 0) := by
  have h0 : ¬((k : Int) < 0) := by omega
  have hc : (0 : Int) ≤ (k : Int) ∧ (k : Int) < (l.length : Int) := ⟨by omega, by omega⟩
  have ht : ((k : Int)).toNat = k := by omega
  simp only [pyIndex, if_neg h0, if_pos hc, ht]

/-- C1: for well-formed inputs (a non-empty known prefix shorter than 256
bytes, and a keystream at least as long as the prefix), the per-sample
candidate is exactly `(pre_i - j - S[num_known_bytes]) mod 256`, where
`(S, j)` is the simulated KSA state, `pre_i` is the smallest index `x < 256`
with `S[x] = next_S_i`, and
`next_S_i = (num_known_bytes - keystream[num_known_bytes - 1]) mod 256`;
the extraction never fails and the candidate lies in `0..255`. -/
theorem extract_candidate_spec (known_bytes keystream : List Nat)
    (h1 : 1 ≤ known_bytes.length) (h2 : known_bytes.length < 256)
    (h3 : known_bytes.length ≤ keystream.length) :
    ∃ pre_i next_S_i cand,
      next_S_i = (((known_bytes.length : Int)
        - (keystream.getD (known_bytes.length - 1) 0 : Int)) % 256).toNat ∧
      pre_i < 256 ∧
      (simulate_ksa known_bytes).1.getD pre_i 0 = next_S_i ∧
      (∀ x, x < pre_i → (simulate_ksa known_bytes).1.getD x 0 ≠ next_S_i) ∧
      cand = (((pre_i : Int) - ((simulate_ksa known_bytes).2 : Int)
        - ((simulate_ksa known_bytes).1.getD known_bytes.length 0 : Int)) % 256).toNat ∧
      extract_candidate known_bytes keystream = some cand ∧
      cand < 256 := by
  have hperm : (simulate_ksa known_bytes).1.Perm (List.range 256) :=
    ksa_loop_perm known_bytes (List.range 256, 0) 0 (List.Perm.refl _) (by omega)
  have hlen : (simulate_ksa known_bytes).1.length = 256 := by simpa using hperm.length_eq
  set v : Nat := (((known_bytes.length : Int)
    - (keystream.getD (known_bytes.length - 1) 0 : Int)) % 256).toNat with hv
  have hv256 : v < 256 := by omega
  have hmem : v ∈ (simulate_ksa known_bytes).1 :=
    hperm.mem_iff.mpr (List.mem_range.mpr hv256)
  obtain ⟨⟨ix, hix⟩, hgix⟩ := List.mem_iff_get.mp hmem
  obtain ⟨pre_i, hscan⟩ := scan_for_succeeds (simulate_ksa known_bytes).1 v 256 0
    ⟨ix, Nat.zero_le _, by omega, by rw [List.getD_eq_get _ 0 hix]; exact hgix⟩
  obtain ⟨hs1, hs2, hs3, hs4⟩ :=
    scan_for_some (simulate_ksa known_bytes).1 v 256 0 pre_i hscan
  have hout : pyIndex keystream ((known_bytes.length : Int) - 1) =
      some (keystream.getD (known_bytes.length - 1) 0) := by
    have hcast : ((known_bytes.length : Int) - 1)
        = ((known_bytes.length - 1 : Nat) : Int) := by omega
    rw [hcast]
    exact pyIndex_of_lt keystream (known_bytes.length - 1) (by omega)
  have hSn : pyIndex (simulate_ksa known_bytes).1 ((known_bytes.length : Nat) : Int) =
      some ((simulate_ksa known_bytes).1.getD known_bytes.length 0) :=
    pyIndex_of_lt _ known_bytes.length (by omega)
  have heval : extract_candidate known_bytes keystream =
      some ((((pre_i : Int) - ((simulate_ksa known_bytes).2 : Int)
        - ((simulate_ksa known_bytes).1.getD known_bytes.length 0 : Int)) % 256).toNat) := by
    simp only [extract_candidate, hout, ← hv, hscan, hSn]
  exact ⟨pre_i, v, _, hv, by omega, hs1,
    (fun x hx => hs4 x (Nat.zero_le x) hx), rfl, heval, by omega⟩

theorem extract_candidate_spec_witness :
    ∃ pre_i next_S_i cand,
      next_S_i = (((List.length [5] : Int)
        - (List.getD [9] (List.length [5] - 1) 0 : Int)) % 256).toNat ∧
      pre_i < 256 ∧
      (simulate_ksa [5]).1.getD pre_i 0 = next_S_i ∧
      (∀ x, x < pre_i → (simulate_ksa [5]).1.getD x 0 ≠ next_S_i) ∧
      cand = (((pre_i : Int) - ((simulate_ksa [5]).2 : Int)
        - ((simulate_ksa [5]).1.getD (List.length [5]) 0 : Int)) % 256).toNat ∧
      extract_candidate [5] [9] = some cand ∧
      cand < 256 :=
  extract_candidate_spec [5] [9] (by decide) (by decide) (by decide)

/-! ## The recovery round and driver loop -/

lemma extract_candidate_lt (known_bytes keystream : List Nat) (k : Nat)
    (h : extract_candidate known_bytes keystream = some k) : k < 256 := by
  simp only [extract_candidate] at h
  split at h
  · exact absurd h (by simp)
  · split at h
    · exact absurd h (by simp)
    · split at h
      · exact absurd h (by simp)
      · simp only [Option.some.injEq] at h
        omega

lemma extract_all_mem : ∀ (samples : List (List Nat × List Nat)) (nonce key cands : List Nat),
    extract_all nonce key samples = some cands →
    ∀ c ∈ cands, ∃ s ∈ samples,
      extract_candidate (mk_known_bytes nonce s.1 key) s.2 = some c := by
  intro samples
  induction samples with
  | nil =>
    intro nonce key cands h c hc
    obtain rfl : ([] : List Nat) = cands := by simpa [extract_all] using h
    exact absurd hc (List.not_mem_nil c)
  | cons s rest ih =>
    intro nonce key cands h c hc
    simp only [extract_all] at h
    cases he : extract_candidate (mk_known_bytes nonce s.1 key) s.2 with
    | none => rw [he] at h; cases h
    | some c0 =>
      cases hr : extract_all nonce key rest with
      | none => rw [he, hr] at h; cases h
      | some cs =>
        rw [he, hr] at h
        obtain rfl : c0 :: cs = cands := by simpa using h
        rcases List.mem_cons.mp hc with h' | h'
        · refine ⟨s, List.mem_cons_self s rest, ?_⟩
          rw [h']; exact he
        · obtain ⟨s', hs', he'⟩ := ih nonce key cs hr c h'
          exact ⟨s', List.mem_cons_of_mem s hs', he'⟩

/-- C9: the key is append-only across the recovery loop: any successful
round produces `key ++ [b]` for a single byte `b < 256` — one byte longer,
all previously recovered bytes untouched — and the known-byte prefix the
round hands to the KSA simulation for a sample with counter bytes `c` has
length `len(nonce) + len(c) + len(key)`. -/
theorem attack_round_append_only (nonce : List Nat) (samples : List (List Nat × List Nat))
    (key key' : List Nat) (h : attack_round nonce samples key = some key') :
    ∃ b, b < 256 ∧ key' = key ++ [b] ∧ key'.length = key.length + 1 ∧
      ∀ c, (mk_known_bytes nonce c key).length =
        nonce.length + c.length + key.length := by
  simp only [attack_round] at h
  cases hx : extract_all nonce key samples with
  | none => simp only [hx] at h; exact Option.noConfusion h
  | some cands =>
    simp only [hx] at h
    cases hm : most_common_element cands with
    | none => simp only [hm] at h; exact Option.noConfusion h
    | some b =>
      simp only [hm] at h
      obtain rfl : key ++ [b] = key' := by simpa using h
      have hbmem : b ∈ cands := most_common_mem cands b hm
      obtain ⟨s, _, hse⟩ := extract_all_mem samples nonce key cands hx b hbmem
      refine ⟨b, extract_candidate_lt _ _ b hse, rfl, by simp, ?_⟩
      intro c
      simp [mk_known_bytes]
      omega

theorem attack_round_append_only_witness :
    ∃ b, b < 256 ∧ [0] = [] ++ [b] ∧ List.length [0] = List.length ([] : List Nat) + 1 ∧
      ∀ c, (mk_known_bytes [] c []).length =
        List.length ([] : List Nat) + c.length + List.length ([] : List Nat) :=
  attack_round_append_only [] [([], [0, 0])] [] [0] (by rfl)

/-- C3 (code defect): the recovery loop of `attack` has no key-length bound —
`attack` is not even passed `key_size` — and no failure reporting.  With a
verifier that never accepts (here on one sample with a 2-byte keystream and
an empty nonce), the loop runs past any configured key size (after 3 rounds
it is still running with a 3-byte key, exceeding e.g. `key_size = 1` with no
reported failure) and then dies with an uncaught `IndexError`
(`keystream[num_known_bytes - 1]` out of range) instead of stopping with a
reported failure distinct from success. -/
theorem attack_loop_unbounded :
    attack_loop (fun _ => false) [] [([], [0, 0])] 3 [] = AttackResult.running [0, 0, 255] ∧
    attack_loop (fun _ => false) [] [([], [0, 0])] 4 [] = AttackResult.crashed :=
  ⟨rfl, rfl⟩

/-- C8 (code defect): the core performs no validation of sample shapes.  A
malformed sample whose counter has the wrong length (here length 0 where
`counter_size` would demand 3) is processed silently and yields a candidate
byte (248), instead of being rejected with a descriptive error. -/
theorem attack_round_malformed_silent :
    List.length ([] : List Nat) ≠ 3 ∧
    attack_round [0, 0] [([], [7, 7, 7])] [] = some [248] :=
  ⟨by decide, rfl⟩

/-! ## The verifier -/

/-- C6: whenever the `try:` body of `test_key` runs to completion with
result `b`, `b` is `true` exactly when encrypting the test plaintext with
the RC4 (ARC4) cipher keyed by
`nonce ‖ counter-bytes (little-endian, counter_size wide) ‖ candidate key`
reproduces the expected ciphertext byte for byte. -/
theorem test_key_spec (nonce : List Nat) (counter counter_size : Nat)
    (key pt ct : List Nat) (b : Bool)
    (h : test_key_checked nonce counter counter_size key pt ct = some b) :
    ∃ cb, to_bytes_le counter counter_size = some cb ∧
      (b = true ↔ rc4_encrypt (nonce ++ cb ++ key) pt = ct) := by
  simp only [test_key_checked] at h
  cases htb : to_bytes_le counter counter_size with
  | none => simp only [htb] at h; exact Option.noConfusion h
  | some cb =>
    simp only [htb] at h
    by_cases hk : 8 * (nonce ++ cb ++ key).length ∈ arc4_key_sizes
    · rw [if_pos hk] at h
      obtain rfl : (rc4_encrypt (nonce ++ cb ++ key) pt == ct) = b := by simpa using h
      exact ⟨cb, rfl, by simp⟩
    · rw [if_neg hk] at h; cases h

theorem test_key_spec_witness :
    ∃ cb, to_bytes_le 0 0 = some cb ∧
      (true = true ↔ rc4_encrypt ([] ++ cb ++ [1, 2, 3, 4, 5]) [0] = [178]) :=
  test_key_spec [] 0 0 [1, 2, 3, 4, 5] [0] [178] true (by rfl)

/-- C7: `test_key` never propagates an internal failure: whenever the `try:`
body raises (modelled by `test_key_checked` returning `none` — e.g. a counter
that does not fit `counter_size` bytes, or a key-schedule input whose length
`ARC4` rejects), the bare `except:` makes `test_key` return `False`. -/
theorem test_key_total (nonce : List Nat) (counter counter_size : Nat)
    (key pt ct : List Nat)
    (h : test_key_checked nonce counter counter_size key pt ct = none) :
    test_key nonce counter counter_size key pt ct = false := by
  simp [test_key, h]

theorem test_key_total_witness :
    test_key [] 1 0 [1, 2, 3, 4, 5] [0] [178] = false :=
  test_key_total [] 1 0 [1, 2, 3, 4, 5] [0] [178] (by rfl)
